import Mathlib

/-!
Verification of the NNCF weight-quantization engine in
`modules/model_quant_nncf.py`.

Shallow embedding choices:
* float32 tensor values are modelled as exact rationals (`ℚ`); machine
  epsilon of float32 is the constant `eps = 2^(-23)`;
* `torch.round` rounds half to even, modelled by `roundTE`;
* a per-channel reduction (`torch.amin`/`torch.amax` over the reduction
  axes with `keepdims=True`) is modelled by applying `amin`/`amax` to the
  list of values of one channel; a weight tensor grouped by channel is a
  `List (List ℚ)`;
* integer tensors are `List ℤ` / `List ℕ` (uint8 bytes are naturals
  `< 256`, with the uint8/int8 wraparound of torch casts made explicit);
* a tensor handed to `pack_weight` is a `PTensor`: its values plus the
  `torch.is_floating_point` flag of its dtype;
* raising an exception is returning `Except.error`.
-/

namespace NNCFQuant

/-- Machine epsilon of `torch.float32`, i.e. `torch.finfo(torch.float32).eps`. -/
def eps : ℚ := 1 / 2 ^ 23

/-- `torch.amin` of one channel (the reduced slice, as a list of values). -/
def amin : List ℚ → ℚ
  | [] => 0
  | x :: xs => xs.foldl min x

/-- `torch.amax` of one channel. -/
def amax : List ℚ → ℚ
  | [] => 0
  | x :: xs => xs.foldl max x

/-- `torch.clip(x, lo, hi)` on integer values: `min (max x lo) hi`. -/
def clipI (x lo hi : ℤ) : ℤ := min (max x lo) hi

/-- `torch.round`: round half to even. -/
def roundTE (q : ℚ) : ℤ :=
  if Int.fract q < 1 / 2 then ⌊q⌋
  else if 1 / 2 < Int.fract q then ⌊q⌋ + 1
  else if ⌊q⌋ % 2 = 0 then ⌊q⌋ else ⌊q⌋ + 1

/-- Truncation toward zero, as in a torch float-to-integer dtype cast. -/
def qtrunc (q : ℚ) : ℤ := if 0 ≤ q then ⌊q⌋ else ⌈q⌉

/-- Wraparound of a torch cast to `torch.uint8`. -/
def uint8wrap (x : ℤ) : ℤ := x % 256

/-- Wraparound of a torch cast to `torch.int8`. -/
def int8wrap (x : ℤ) : ℤ := (x + 128) % 256 - 128

/-- One byte produced by `pack_uint4`'s vectorized
`bitwise_and(t[..., ::2], 15) | t[..., 1::2] << 4` on uint8 storage
(`a` is the first element of the pair, `b` the second; the shift wraps
mod 256 in uint8 arithmetic). -/
def pack_byte (a b : ℕ) : ℕ := (a &&& 15) ||| (b <<< 4) % 256

/-- `pack_uint4` (values part): the tensor is viewed as consecutive pairs
(`reshape(-1, 2)`) and each pair is packed into one byte.  A tensor whose
flattened length is odd makes the reshape fail, modelled as `none`.
The source function's dtype guard (it raises unless the input is
`torch.uint8`) is modelled at the `pack_weight` call sites, which cast
their input to uint8 before calling it. -/
def pack_uint4 : List ℕ → Option (List ℕ)
  | [] => some []
  | a :: b :: rest => (pack_uint4 rest).map (fun p => pack_byte a b :: p)
  | [_] => none

/-- `unpack_uint4`: `stack((packed & 15, packed >> 4), dim=-1)`, flattened
back to the logical order (low nibble first, then high nibble). -/
def unpack_uint4 (packed : List ℕ) : List ℕ :=
  packed.flatMap fun b => [b &&& 15, b >>> 4]

/-- `pack_int4`: add the +8 bias in int8 arithmetic, cast to uint8, then
nibble-pack.  The int8 wraparound of `tensor + 8` composed with the uint8
cast is `(v + 8) mod 256`. -/
def pack_int4 (tensor : List ℤ) : Option (List ℕ) :=
  pack_uint4 (tensor.map fun v => ((v + 8) % 256).toNat)

/-- `unpack_int4`: unpack nibbles, cast to int8 (exact, values are in
`[0, 15]`), subtract the +8 bias. -/
def unpack_int4 (packed : List ℕ) : List ℤ :=
  (unpack_uint4 packed).map fun n : ℕ => (n : ℤ) - 8

/-- A tensor as seen by a `pack_weight` method: its element values and the
`torch.is_floating_point` flag of its dtype. -/
structure PTensor where
  is_float : Bool
  vals : List ℚ
deriving DecidableEq

/-- `level_low` used for clipping the rounded codes (line 95 of the
source): `0` in asymmetric mode, `-(2 ** (num_bits - 1))` in symmetric
mode. -/
def level_low (num_bits : ℕ) (is_asym_mode : Bool) : ℤ :=
  if is_asym_mode then 0 else -(2 ^ (num_bits - 1))

/-- `level_high` used for clipping the rounded codes (line 96 of the
source): `2 ** num_bits - 1` in asymmetric mode, `2 ** (num_bits - 1) - 1`
in symmetric mode. -/
def level_high (num_bits : ℕ) (is_asym_mode : Bool) : ℤ :=
  if is_asym_mode then 2 ^ num_bits - 1 else 2 ^ (num_bits - 1) - 1

/-- The quantization data computed for one channel: the (possibly
eps-floored) scale, the zero point (asymmetric mode only), and the rounded
and clipped integer codes of the channel's weight values. -/
structure ChannelQuant where
  scale : ℚ
  zero_point : Option ℤ
  codes : List ℤ
deriving DecidableEq

/-- The asymmetric scale of one channel (lines 69-78 of the source):
`level_low = 0`, `level_high = 2 ** num_bits - 1`,
`levels = level_high - level_low + 1`,
`scale = (max - min) / (levels - 1)`, then
`scale = where(abs(scale) < eps, eps, scale)`. -/
def asym_scale (num_bits : ℕ) (w : List ℚ) : ℚ :=
  let ll : ℤ := 0
  let lh : ℤ := 2 ^ num_bits - 1
  let levels : ℤ := lh - ll + 1
  let scale0 := (amax w - amin w) / ((levels : ℚ) - 1)
  if |scale0| < eps then eps else scale0

/-- The asymmetric zero point of one channel (lines 79-80 of the source):
`zero_point = level_low - round(min / scale)`, cast to int32 (exact: it
is an integer) and clipped to `[level_low, level_high]`. -/
def asym_zero_point (num_bits : ℕ) (w : List ℚ) : ℤ :=
  clipI (0 - roundTE (amin w / asym_scale num_bits w)) 0 (2 ^ num_bits - 1)

/-- The symmetric scale of one channel (lines 82-91 of the source):
`factor = 2 ** (num_bits - 1)`, `w_abs_min = abs(amin w)`,
`w_max = amax w`,
`scale = where(w_abs_min >= w_max, w_abs_min, -w_max) / factor`, then
`scale = where(abs(scale) < eps, eps, scale)`. -/
def sym_scale (num_bits : ℕ) (w : List ℚ) : ℚ :=
  let factor : ℚ := 2 ^ (num_bits - 1)
  let w_abs_min := |amin w|
  let w_max := amax w
  let scale0 := (if w_abs_min ≥ w_max then w_abs_min else -w_max) / factor
  if |scale0| < eps then eps else scale0

/-- The parameter computation and quantization of `nncf_compress_layer`
(lines 68-103 of the source) for one channel `w` (the values reduced
together by the `amin`/`amax` calls).  The codes are
`clip(round(w / scale (+ zero_point)), level_low, level_high)`. -/
def quant_channel (num_bits : ℕ) (is_asym_mode : Bool) (w : List ℚ) : ChannelQuant :=
  if is_asym_mode then
    let scale := asym_scale num_bits w
    let zero_point := asym_zero_point num_bits w
    let codes := w.map fun v =>
      clipI (roundTE (v / scale + (zero_point : ℚ))) (level_low num_bits true) (level_high num_bits true)
    ⟨scale, some zero_point, codes⟩
  else
    let scale := sym_scale num_bits w
    let codes := w.map fun v =>
      clipI (roundTE (v / scale)) (level_low num_bits false) (level_high num_bits false)
    ⟨scale, none, codes⟩

/-- The asymmetric scale exactly as §4.2 of the specification words it:
`scale = (max - min) / (levels - 1)` with `levels = 2 ** num_bits`,
floored to machine epsilon wherever its absolute value would be smaller.
Stated for comparison against `asym_scale`. -/
def asym_scale_spec (num_bits : ℕ) (w : List ℚ) : ℚ :=
  let levels : ℚ := 2 ^ num_bits
  let raw := (amax w - amin w) / (levels - 1)
  if |raw| < eps then eps else raw

/-- The asymmetric zero point exactly as §4.2 of the specification words
it: `zero_point = round(level_low - min / scale)`, clipped to
`[level_low, level_high]`.  Stated for comparison against
`asym_zero_point` (which subtracts the rounding result from `level_low`
instead of rounding the difference). -/
def asym_zero_point_spec (num_bits : ℕ) (w : List ℚ) : ℤ :=
  clipI (roundTE ((0 : ℚ) - amin w / asym_scale_spec num_bits w)) 0 (2 ^ num_bits - 1)

/-- The symmetric scale exactly as §4.2 of the specification words it:
`scale = (abs_min if abs_min ≥ max else -max) / factor` with
`factor = 2 ** (num_bits - 1)` and `abs_min = abs(min)`, floored to
machine epsilon wherever its absolute value would be smaller.  Stated for
comparison against `sym_scale`. -/
def sym_scale_spec (num_bits : ℕ) (w : List ℚ) : ℚ :=
  let factor : ℚ := 2 ^ (num_bits - 1)
  let raw := if |amin w| ≥ amax w then |amin w| / factor else -(amax w) / factor
  if |raw| < eps then eps else raw

/-- `decompress_asymmetric`: `(input - zero_point) * scale`. -/
def decompress_asymmetric (input scale zero_point : ℚ) : ℚ :=
  (input - zero_point) * scale

/-- `decompress_symmetric`: `input * scale`. -/
def decompress_symmetric (input scale : ℚ) : ℚ :=
  input * scale

namespace INT8AsymmetricWeightsDecompressor

/-- `INT8AsymmetricWeightsDecompressor.pack_weight`: reject floating-point
dtypes, reject values outside `[0, 255]`, then cast to uint8 (bytes are
naturals below 256). -/
def pack_weight (weight : PTensor) : Except String (List ℕ) :=
  if weight.is_float then
    .error "Invalid weight dtype. Integer types are supported."
  else if weight.vals.any (fun v => decide (v < 0) || decide (255 < v)) then
    .error "Weight values are not in [0, 255]."
  else
    .ok (weight.vals.map fun v => (uint8wrap (qtrunc v)).toNat)

/-- The dequantization done by
`INT8AsymmetricWeightsDecompressor.forward` on the stored bytes of one
channel with that channel's scale and zero point (the 8-bit stored
zero point is its packed form: packing is the identity cast for 8 bits). -/
def forward (scale zero_point : ℚ) (stored : List ℕ) : List ℚ :=
  stored.map fun c : ℕ => decompress_asymmetric (c : ℚ) scale zero_point

end INT8AsymmetricWeightsDecompressor

namespace INT8SymmetricWeightsDecompressor

/-- `INT8SymmetricWeightsDecompressor.pack_weight`: reject values outside
`[-128, 127]`, then cast to int8.  Unlike the asymmetric variant, the
source has no floating-point dtype check here. -/
def pack_weight (weight : PTensor) : Except String (List ℤ) :=
  if weight.vals.any (fun v => decide (v < -128) || decide (127 < v)) then
    .error "Weight values are not in [-128, 127]."
  else
    .ok (weight.vals.map fun v => int8wrap (qtrunc v))

/-- The dequantization done by `INT8SymmetricWeightsDecompressor.forward`
on the stored bytes of one channel. -/
def forward (scale : ℚ) (stored : List ℤ) : List ℚ :=
  stored.map fun c : ℤ => decompress_symmetric (c : ℚ) scale

end INT8SymmetricWeightsDecompressor

namespace INT4AsymmetricWeightsDecompressor

/-- `INT4AsymmetricWeightsDecompressor.pack_weight`: reject values outside
`[0, 15]`, cast to uint8 and nibble-pack.  No floating-point dtype check
in the source; `pack_uint4`'s own dtype guard cannot fire because of the
uint8 cast at the call site.  The reshape of an odd-length tensor is the
`"reshape"` error. -/
def pack_weight (weight : PTensor) : Except String (List ℕ) :=
  if weight.vals.any (fun v => decide (v < 0) || decide (15 < v)) then
    .error "Weight values are not in [0, 15]."
  else
    match pack_uint4 (weight.vals.map fun v => (uint8wrap (qtrunc v)).toNat) with
    | none => .error "reshape"
    | some p => .ok p

/-- The dequantization done by
`INT4AsymmetricWeightsDecompressor.forward` on the packed bytes of one
channel: unpack nibbles, then `decompress_asymmetric`.  The channel's
zero point is a scalar; its own nibble pack/unpack round-trips exactly
(it is clipped to `[0, 15]`), so it appears here already unpacked. -/
def forward (scale zero_point : ℚ) (stored : List ℕ) : List ℚ :=
  (unpack_uint4 stored).map fun c : ℕ => decompress_asymmetric (c : ℚ) scale zero_point

end INT4AsymmetricWeightsDecompressor

namespace INT4SymmetricWeightsDecompressor

/-- `INT4SymmetricWeightsDecompressor.pack_weight`: reject floating-point
dtypes, reject values outside `[-8, 7]`, cast to int8 and call
`pack_int4`. -/
def pack_weight (weight : PTensor) : Except String (List ℕ) :=
  if weight.is_float then
    .error "Invalid weight dtype. Integer types are supported."
  else if weight.vals.any (fun v => decide (v < -8) || decide (7 < v)) then
    .error "Tensor values are not in [-8, 7]."
  else
    match pack_int4 (weight.vals.map fun v => int8wrap (qtrunc v)) with
    | none => .error "reshape"
    | some p => .ok p

/-- The dequantization done by `INT4SymmetricWeightsDecompressor.forward`
on the packed bytes of one channel: unpack nibbles with the -8 bias, then
`decompress_symmetric`. -/
def forward (scale : ℚ) (stored : List ℕ) : List ℚ :=
  (unpack_int4 stored).map fun c : ℤ => decompress_symmetric (c : ℚ) scale

end INT4SymmetricWeightsDecompressor

/-- The full per-channel quantize → pack → unpack → dequantize chain of
`nncf_compress_layer` followed by one invocation of the attached
decompressor, for one channel `w`: quantize and clip (lines 94-103),
cast the codes to the integer storage dtype
(`uint8` if asymmetric else `int8`, so `is_float = false`), pack them
with the decompressor selected by `(num_bits, is_asym_mode)`, then run
that decompressor's dequantization. -/
def compress_decompress (num_bits : ℕ) (is_asym_mode : Bool) (w : List ℚ) :
    Except String (List ℚ) :=
  let q := quant_channel num_bits is_asym_mode w
  let wt : PTensor := ⟨false, q.codes.map fun c : ℤ => (c : ℚ)⟩
  let zp : ℚ := ((q.zero_point.getD 0 : ℤ) : ℚ)
  if num_bits = 4 then
    if is_asym_mode then
      (INT4AsymmetricWeightsDecompressor.pack_weight wt).map
        (INT4AsymmetricWeightsDecompressor.forward q.scale zp)
    else
      (INT4SymmetricWeightsDecompressor.pack_weight wt).map
        (INT4SymmetricWeightsDecompressor.forward q.scale)
  else
    if is_asym_mode then
      (INT8AsymmetricWeightsDecompressor.pack_weight wt).map
        (INT8AsymmetricWeightsDecompressor.forward q.scale zp)
    else
      (INT8SymmetricWeightsDecompressor.pack_weight wt).map
        (INT8SymmetricWeightsDecompressor.forward q.scale)

/-- The rounded but not yet clipped code of one weight value `v` of the
channel `w`: `round(v / scale + zero_point)` (the zero-point term is `0`
in symmetric mode, where no zero point exists). -/
def unclipped_code (num_bits : ℕ) (is_asym_mode : Bool) (w : List ℚ) (v : ℚ) : ℤ :=
  roundTE (v / (quant_channel num_bits is_asym_mode w).scale +
    (((quant_channel num_bits is_asym_mode w).zero_point.getD 0 : ℤ) : ℚ))

/-- Classification of `layer.__class__.__name__` by the three membership
lists `linear_types`, `conv_types`, `conv_transpose_types` of the source;
`notAllowed` is any name outside `allowed_types`. -/
inductive LayerClass where
  | linear
  | conv
  | convTranspose
  | notAllowed
deriving DecidableEq

/-- The reduction axes as `nncf_compress_layer` actually computes them
(lines 51-60).  The conv branch's assignment
`reduction_axes = [i for i in range(ndim) if i != 0]` (line 54) is dead:
the conv-transpose `if` on line 55 is not chained to it with `elif`, so
its `else` (line 60) re-assigns `[ndim - 1]` for every layer that is not
a transposed convolution — convolution and linear layers alike end up
reducing over just the last axis. -/
def reduction_axes (cls : LayerClass) (ndim : ℕ) : List ℕ :=
  let _dead := if cls = LayerClass.conv then (List.range ndim).filter (fun i => i ≠ 0) else []
  if cls = LayerClass.convTranspose then (List.range ndim).filter (fun i => i ≠ 1)
  else [ndim - 1]

/-- The reduction axes as the specification words them (§4.2): linear
layers reduce over all axes except the last; convolution layers over all
axes except axis 0; transposed-convolution layers over all axes except
axis 1.  Stated for comparison against `reduction_axes`. -/
def reduction_axes_claimed (cls : LayerClass) (ndim : ℕ) : List ℕ :=
  match cls with
  | LayerClass.linear => (List.range ndim).filter (fun i => i ≠ ndim - 1)
  | LayerClass.conv => (List.range ndim).filter (fun i => i ≠ 0)
  | LayerClass.convTranspose => (List.range ndim).filter (fun i => i ≠ 1)
  | LayerClass.notAllowed => []

/-- The shape of the `scale` tensor produced by
`torch.amin(w, dim=reduction_axes, keepdims=True)`: every reduced axis
collapses to extent 1, the others keep their extent. -/
def scale_shape (shape : List ℕ) (axes : List ℕ) : List ℕ :=
  (List.range shape.length).map fun i => if i ∈ axes then 1 else shape.getD i 0

/-- A quantizable layer as `nncf_compress_layer` sees it: its class name
(classified), the rank of its weight, the float weight grouped by
quantization channel, the packed storage (`none` before compression), and
the number of registered pre-forward operations. -/
structure Layer where
  cls : LayerClass
  ndim : ℕ
  channels : List (List ℚ)
  packed : Option PTensor
  hooks : ℕ
deriving DecidableEq

/-- `nncf_compress_layer` (lines 46-142).  A layer whose class is not in
`allowed_types` is returned untouched; a convolution or transposed
convolution is returned untouched when `is_asym_mode` holds or
`quant_conv` is false (the two early returns on lines 52-53 and 56-57).
Otherwise each channel is quantized, the codes are cast to the integer
storage dtype and packed by the decompressor chosen from
`(num_bits, is_asym_mode)`; on success the packed bytes replace the
weight storage and the decompressor is registered as a pre-forward
operation. -/
def nncf_compress_layer (num_bits : ℕ) (is_asym_mode : Bool) (quant_conv : Bool)
    (layer : Layer) : Except String Layer :=
  if layer.cls = LayerClass.notAllowed then .ok layer
  else if layer.cls = LayerClass.conv ∧ (is_asym_mode || !quant_conv) = true then .ok layer
  else if layer.cls = LayerClass.convTranspose ∧ (is_asym_mode || !quant_conv) = true then .ok layer
  else
    let qs := layer.channels.map (quant_channel num_bits is_asym_mode)
    let codes := (qs.map ChannelQuant.codes).flatten
    let wt : PTensor := ⟨false, codes.map fun c : ℤ => (c : ℚ)⟩
    let packedE : Except String PTensor :=
      if num_bits = 4 then
        if is_asym_mode then
          (INT4AsymmetricWeightsDecompressor.pack_weight wt).map
            (fun p => ⟨false, p.map fun n : ℕ => (n : ℚ)⟩)
        else
          (INT4SymmetricWeightsDecompressor.pack_weight wt).map
            (fun p => ⟨false, p.map fun n : ℕ => (n : ℚ)⟩)
      else
        if is_asym_mode then
          (INT8AsymmetricWeightsDecompressor.pack_weight wt).map
            (fun p => ⟨false, p.map fun n : ℕ => (n : ℚ)⟩)
        else
          (INT8SymmetricWeightsDecompressor.pack_weight wt).map
            (fun p => ⟨false, p.map fun z : ℤ => (z : ℚ)⟩)
    match packedE with
    | .error msg => .error msg
    | .ok p => .ok { layer with packed := some p, hooks := layer.hooks + 1 }

/-- `NNCFQuantizer.create_quantized_param` (lines 195-217): after loading
the parameter it calls `nncf_compress_layer` without the `quant_conv`
argument, which therefore takes its default value `False`. -/
def create_quantized_param (num_bits : ℕ) (is_asym_mode : Bool) (layer : Layer) :
    Except String Layer :=
  nncf_compress_layer num_bits is_asym_mode false layer

/-- The weight tensor `[[1.0, -2.0], [3.0, -0.5]]` of §8's first concrete
scenario, flattened to its single whole-tensor reduction channel. -/
def c5_tensor : List ℚ := [1, -2, 3, -1/2]

section RoundingLemmas

/-- Round-half-to-even differs from the exact value by at most 1/2. -/
theorem abs_roundTE_sub (q : ℚ) : |(roundTE q : ℚ) - q| ≤ 1 / 2 := by
  have h0 : (0 : ℚ) ≤ Int.fract q := Int.fract_nonneg q
  have h1 : Int.fract q < 1 := Int.fract_lt_one q
  have hfl : (⌊q⌋ : ℚ) = q - Int.fract q := (Int.self_sub_fract q).symm
  unfold roundTE
  split_ifs with hlt hgt hev
  · rw [hfl, abs_le]; constructor <;> linarith
  · push_cast
    rw [hfl, abs_le]; constructor <;> linarith
  · have he : Int.fract q = 1 / 2 := le_antisymm (not_lt.mp hgt) (not_lt.mp hlt)
    rw [hfl, abs_le]; constructor <;> linarith
  · have he : Int.fract q = 1 / 2 := le_antisymm (not_lt.mp hgt) (not_lt.mp hlt)
    push_cast
    rw [hfl, abs_le]; constructor <;> linarith

/-- Round-half-to-even of an integer is that integer. -/
theorem roundTE_intCast (z : ℤ) : roundTE (z : ℚ) = z := by
  unfold roundTE
  rw [Int.fract_intCast]
  norm_num

/-- Round-half-to-even is an odd function. -/
theorem roundTE_neg (q : ℚ) : roundTE (-q) = -roundTE q := by
  rcases eq_or_ne (Int.fract q) 0 with h0 | h0
  · have hfr : Int.fract q = q - ⌊q⌋ := (Int.self_sub_floor q).symm
    have hz : q = (⌊q⌋ : ℚ) := by rw [hfr] at h0; linarith
    rw [hz, ← Int.cast_neg, roundTE_intCast, roundTE_intCast]
  · have hq1 : (⌊q⌋ : ℚ) < q := by
      have hfr : Int.fract q = q - ⌊q⌋ := (Int.self_sub_floor q).symm
      have hpos : 0 < Int.fract q := lt_of_le_of_ne (Int.fract_nonneg q) (Ne.symm h0)
      linarith
    have hq2 : q < (⌊q⌋ : ℚ) + 1 := Int.lt_floor_add_one q
    have hfl : ⌊-q⌋ = -⌊q⌋ - 1 := by
      rw [Int.floor_eq_iff]
      constructor
      · push_cast; linarith
      · push_cast; linarith
    have hfr2 : Int.fract (-q) = 1 - Int.fract q := Int.fract_neg h0
    have hfr3 : Int.fract q = q - ⌊q⌋ := (Int.self_sub_floor q).symm
    unfold roundTE
    rw [hfr2, hfl]
    rcases lt_trichotomy (Int.fract q) (1 / 2) with h | h | h
    · have hgt : ¬(1 - Int.fract q < 1 / 2) := by linarith
      have hgt2 : (1 : ℚ) / 2 < 1 - Int.fract q := by
        have hpos : 0 < Int.fract q := lt_of_le_of_ne (Int.fract_nonneg q) (Ne.symm h0)
        linarith
      simp only [if_pos h, if_neg hgt, if_pos hgt2]
      omega
    · have hns : ¬(1 - Int.fract q < 1 / 2) := by rw [h]; norm_num
      have hns2 : ¬(1 / 2 < 1 - Int.fract q) := by rw [h]; norm_num
      have hns3 : ¬(Int.fract q < 1 / 2) := by rw [h]; norm_num
      have hns4 : ¬(1 / 2 < Int.fract q) := by rw [h]; norm_num
      simp only [if_neg hns, if_neg hns2, if_neg hns3, if_neg hns4]
      split_ifs <;> omega
    · have hlt : 1 - Int.fract q < 1 / 2 := by linarith
      have hns3 : ¬(Int.fract q < 1 / 2) := by linarith
      simp only [if_pos hlt, if_neg hns3, if_pos h]
      omega

end RoundingLemmas

section BasicLemmas

theorem eps_pos : 0 < eps := by norm_num [eps]

/-- The epsilon floor keeps the scale away from zero. -/
theorem eps_floor_ne_zero (s0 : ℚ) : (if |s0| < eps then eps else s0) ≠ 0 := by
  split_ifs with h
  · exact ne_of_gt eps_pos
  · intro h0
    rw [h0] at h
    simp only [abs_zero, not_lt] at h
    exact absurd eps_pos (not_lt.mpr h)

theorem asym_scale_ne_zero (num_bits : ℕ) (w : List ℚ) : asym_scale num_bits w ≠ 0 :=
  eps_floor_ne_zero _

theorem sym_scale_ne_zero (num_bits : ℕ) (w : List ℚ) : sym_scale num_bits w ≠ 0 :=
  eps_floor_ne_zero _

theorem level_low_le_level_high (num_bits : ℕ) (m : Bool) :
    level_low num_bits m ≤ level_high num_bits m := by
  have h1 : (0 : ℤ) < 2 ^ num_bits := pow_pos (by norm_num) num_bits
  have h2 : (0 : ℤ) < 2 ^ (num_bits - 1) := pow_pos (by norm_num) (num_bits - 1)
  cases m <;> simp only [level_low, level_high, if_true, if_false, Bool.false_eq_true] <;> omega

theorem clipI_mem (x lo hi : ℤ) (h : lo ≤ hi) : lo ≤ clipI x lo hi ∧ clipI x lo hi ≤ hi :=
  ⟨le_min (le_max_right x lo) h, min_le_right _ hi⟩

theorem clipI_eq_self (x lo hi : ℤ) (h1 : lo ≤ x) (h2 : x ≤ hi) : clipI x lo hi = x := by
  unfold clipI
  rw [max_eq_left h1, min_eq_left h2]

theorem qtrunc_intCast (z : ℤ) : qtrunc (z : ℚ) = z := by
  unfold qtrunc
  split_ifs <;> simp

theorem int8wrap_eq_self (c : ℤ) (h1 : -128 ≤ c) (h2 : c ≤ 127) : int8wrap c = c := by
  unfold int8wrap
  omega

theorem uint8wrap_eq_self (c : ℤ) (h1 : 0 ≤ c) (h2 : c ≤ 255) : uint8wrap c = c := by
  unfold uint8wrap
  omega

/-- The rounded codes of `quant_channel` lie in `[level_low, level_high]`. -/
theorem quant_channel_codes_mem (num_bits : ℕ) (m : Bool) (w : List ℚ) :
    ∀ c ∈ (quant_channel num_bits m w).codes,
      level_low num_bits m ≤ c ∧ c ≤ level_high num_bits m := by
  intro c hc
  have hll := level_low_le_level_high num_bits m
  cases m <;>
    simp only [quant_channel, if_true, if_false, Bool.false_eq_true, List.mem_map] at hc <;>
    obtain ⟨v, _, rfl⟩ := hc <;>
    exact clipI_mem _ _ _ hll

/-- The asymmetric zero point lies in `[level_low, level_high]`. -/
theorem asym_zero_point_mem (num_bits : ℕ) (w : List ℚ) :
    level_low num_bits true ≤ asym_zero_point num_bits w ∧
      asym_zero_point num_bits w ≤ level_high num_bits true := by
  have hll := level_low_le_level_high num_bits true
  simp only [level_low, level_high, if_true] at hll ⊢
  exact clipI_mem _ _ _ hll

end BasicLemmas

section PackLemmas

theorem pack_byte_low_high : ∀ a < 16, ∀ b < 16,
    pack_byte a b &&& 15 = a ∧ pack_byte a b >>> 4 = b := by decide

/-- Nibble packing and unpacking are mutually inverse on even-length
lists of values in `[0, 15]`. -/
theorem pack_uint4_roundtrip : ∀ l : List ℕ, (∀ v ∈ l, v < 16) → l.length % 2 = 0 →
    ∃ p, pack_uint4 l = some p ∧ unpack_uint4 p = l
  | [] => fun _ _ => ⟨[], rfl, rfl⟩
  | [_] => fun _ h => by simp at h
  | a :: b :: rest => fun hv hl => by
      obtain ⟨p, hp, hu⟩ :=
        pack_uint4_roundtrip rest (fun v hv2 => hv v (by simp [hv2]))
          (by simp only [List.length_cons] at hl; omega)
      obtain ⟨h1, h2⟩ := pack_byte_low_high a (hv a (by simp)) b (hv b (by simp))
      refine ⟨pack_byte a b :: p, ?_, ?_⟩
      · simp [pack_uint4, hp]
      · simp [unpack_uint4, List.flatMap_cons] at hu ⊢
        rw [h1, h2]
        simpa [unpack_uint4] using hu

/-- `pack_uint4` succeeds exactly on even-length inputs. -/
theorem pack_uint4_isSome : ∀ l : List ℕ, l.length % 2 = 0 → ∃ p, pack_uint4 l = some p
  | [] => fun _ => ⟨[], rfl⟩
  | [_] => fun h => by simp at h
  | a :: b :: rest => fun hl => by
      obtain ⟨p, hp⟩ := pack_uint4_isSome rest (by simp only [List.length_cons] at hl; omega)
      exact ⟨pack_byte a b :: p, by simp [pack_uint4, hp]⟩

end PackLemmas

section PackWeightLemmas

/-- A boolean range check over the rational casts of an integer list is
false when every element satisfies the bounds. -/
theorem any_range_false (l : List ℤ) (lo hi : ℚ) (h : ∀ c ∈ l, lo ≤ (c : ℚ) ∧ (c : ℚ) ≤ hi) :
    (l.map fun c : ℤ => (c : ℚ)).any (fun v => decide (v < lo) || decide (hi < v)) = false := by
  rw [List.any_eq_false]
  intro v hv
  obtain ⟨c, hc, rfl⟩ := List.mem_map.mp hv
  obtain ⟨h1, h2⟩ := h c hc
  simp only [Bool.or_eq_true, decide_eq_true_eq, not_or, not_lt]
  exact ⟨h1, h2⟩

theorem INT8Sym_pack_id (l : List ℤ) (h : ∀ c ∈ l, -128 ≤ c ∧ c ≤ 127) :
    INT8SymmetricWeightsDecompressor.pack_weight ⟨false, l.map fun c : ℤ => (c : ℚ)⟩ = .ok l := by
  unfold INT8SymmetricWeightsDecompressor.pack_weight
  have hany := any_range_false l (-128) 127 (fun c hc => by
    obtain ⟨h1, h2⟩ := h c hc
    constructor <;> push_cast <;> [exact_mod_cast h1; exact_mod_cast h2])
  simp only [hany, Bool.false_eq_true, if_false, List.map_map]
  congr 1
  have hid : ∀ c ∈ l, (int8wrap (qtrunc ((c : ℤ) : ℚ))) = c := fun c hc => by
    rw [qtrunc_intCast]
    exact int8wrap_eq_self c (h c hc).1 (h c hc).2
  calc l.map (fun c => int8wrap (qtrunc ((c : ℤ) : ℚ)))
      = l.map id := List.map_congr_left hid
    _ = l := List.map_id l

theorem INT8Asym_pack_id (l : List ℤ) (h : ∀ c ∈ l, 0 ≤ c ∧ c ≤ 255) :
    INT8AsymmetricWeightsDecompressor.pack_weight ⟨false, l.map fun c : ℤ => (c : ℚ)⟩ =
      .ok (l.map Int.toNat) := by
  unfold INT8AsymmetricWeightsDecompressor.pack_weight
  have hany := any_range_false l 0 255 (fun c hc => by
    obtain ⟨h1, h2⟩ := h c hc
    constructor <;> push_cast <;> [exact_mod_cast h1; exact_mod_cast h2])
  simp only [hany, Bool.false_eq_true, if_false, List.map_map]
  congr 1
  apply List.map_congr_left
  intro c hc
  simp only [Function.comp_apply]
  rw [qtrunc_intCast, uint8wrap_eq_self c (h c hc).1 (h c hc).2]

theorem INT4Asym_pack_id (l : List ℤ) (h : ∀ c ∈ l, 0 ≤ c ∧ c ≤ 15)
    (hlen : l.length % 2 = 0) :
    ∃ p, INT4AsymmetricWeightsDecompressor.pack_weight ⟨false, l.map fun c : ℤ => (c : ℚ)⟩ = .ok p ∧
      unpack_uint4 p = l.map Int.toNat := by
  unfold INT4AsymmetricWeightsDecompressor.pack_weight
  have hany := any_range_false l 0 15 (fun c hc => by
    obtain ⟨h1, h2⟩ := h c hc
    constructor <;> push_cast <;> [exact_mod_cast h1; exact_mod_cast h2])
  have hcast : (l.map fun c : ℤ => (c : ℚ)).map (fun v => (uint8wrap (qtrunc v)).toNat) =
      l.map Int.toNat := by
    rw [List.map_map]
    apply List.map_congr_left
    intro c hc
    simp only [Function.comp_apply]
    rw [qtrunc_intCast, uint8wrap_eq_self c (h c hc).1 (by have := (h c hc).2; omega)]
  obtain ⟨p, hp, hu⟩ := pack_uint4_roundtrip (l.map Int.toNat)
    (fun v hv => by
      obtain ⟨c, hc, rfl⟩ := List.mem_map.mp hv
      have := h c hc
      omega)
    (by simpa using hlen)
  refine ⟨p, ?_, hu⟩
  simp only [hany, Bool.false_eq_true, if_false, hcast, hp]

theorem INT4Sym_pack_id (l : List ℤ) (h : ∀ c ∈ l, -8 ≤ c ∧ c ≤ 7)
    (hlen : l.length % 2 = 0) :
    ∃ p, INT4SymmetricWeightsDecompressor.pack_weight ⟨false, l.map fun c : ℤ => (c : ℚ)⟩ = .ok p ∧
      unpack_int4 p = l := by
  unfold INT4SymmetricWeightsDecompressor.pack_weight
  have hany := any_range_false l (-8) 7 (fun c hc => by
    obtain ⟨h1, h2⟩ := h c hc
    constructor <;> push_cast <;> [exact_mod_cast h1; exact_mod_cast h2])
  have hcast : (l.map fun c : ℤ => (c : ℚ)).map (fun v => int8wrap (qtrunc v)) = l.map id := by
    rw [List.map_map]
    apply List.map_congr_left
    intro c hc
    simp only [Function.comp_apply, id]
    rw [qtrunc_intCast]
    exact int8wrap_eq_self c (by have := h c hc; omega) (by have := h c hc; omega)
  have hbias : (l.map id).map (fun v : ℤ => ((v + 8) % 256).toNat) =
      l.map (fun v : ℤ => (v + 8).toNat) := by
    rw [List.map_id, ]
    apply List.map_congr_left
    intro c hc
    have := h c hc
    omega
  obtain ⟨p, hp, hu⟩ := pack_uint4_roundtrip (l.map fun v : ℤ => (v + 8).toNat)
    (fun v hv => by
      obtain ⟨c, hc, rfl⟩ := List.mem_map.mp hv
      have := h c hc
      omega)
    (by simpa using hlen)
  refine ⟨p, ?_, ?_⟩
  · unfold pack_int4
    simp only [hany, Bool.false_eq_true, if_false, PTensor.is_float, hcast]
    rw [List.map_map]
    have : (l.map (fun v : ℤ => ((id v + 8) % 256).toNat)) = l.map (fun v : ℤ => (v + 8).toNat) := by
      apply List.map_congr_left
      intro c hc
      have := h c hc
      simp only [id]
      omega
    rw [show ((fun v : ℤ => ((v + 8) % 256).toNat) ∘ id) = (fun v : ℤ => ((id v + 8) % 256).toNat) from rfl, this, hp]
  · unfold unpack_int4
    rw [hu, List.map_map]
    apply List.ext_getElem (by simp)
    intro i h1 h2
    simp only [List.getElem_map, Function.comp_apply]
    have := h (l[i]) (List.getElem_mem h2)
    omega

end PackWeightLemmas

section PipelineLemmas

theorem quant_channel_sym_scale (num_bits : ℕ) (w : List ℚ) :
    (quant_channel num_bits false w).scale = sym_scale num_bits w := rfl

theorem quant_channel_asym_scale (num_bits : ℕ) (w : List ℚ) :
    (quant_channel num_bits true w).scale = asym_scale num_bits w := rfl

theorem quant_channel_sym_codes (num_bits : ℕ) (w : List ℚ) :
    (quant_channel num_bits false w).codes = w.map fun v =>
      clipI (roundTE (v / sym_scale num_bits w)) (level_low num_bits false)
        (level_high num_bits false) := rfl

theorem quant_channel_asym_codes (num_bits : ℕ) (w : List ℚ) :
    (quant_channel num_bits true w).codes = w.map fun v =>
      clipI (roundTE (v / asym_scale num_bits w + (asym_zero_point num_bits w : ℚ)))
        (level_low num_bits true) (level_high num_bits true) := rfl

/-- The 8-bit symmetric chain: pack is the identity on the clipped codes,
so decompression is `code * scale` elementwise. -/
theorem compress_decompress_sym8 (w : List ℚ) :
    compress_decompress 8 false w =
      .ok ((quant_channel 8 false w).codes.map fun c : ℤ =>
        decompress_symmetric (c : ℚ) (sym_scale 8 w)) := by
  have hmem := quant_channel_codes_mem 8 false w
  have hbound : ∀ c ∈ (quant_channel 8 false w).codes, -128 ≤ c ∧ c ≤ 127 := by
    intro c hc
    have hx := hmem c hc
    simp only [level_low, level_high, Bool.false_eq_true, if_false] at hx
    norm_num at hx
    exact hx
  have hpack := INT8Sym_pack_id (quant_channel 8 false w).codes hbound
  simp only [compress_decompress]
  norm_num [hpack, Except.map, INT8SymmetricWeightsDecompressor.forward,
    quant_channel_sym_scale]

/-- The 8-bit asymmetric chain: pack is the identity uint8 cast on the
clipped codes, so decompression is `(code - zero_point) * scale`
elementwise. -/
theorem compress_decompress_asym8 (w : List ℚ) :
    compress_decompress 8 true w =
      .ok ((quant_channel 8 true w).codes.map fun c : ℤ =>
        decompress_asymmetric (c : ℚ) (asym_scale 8 w) ((asym_zero_point 8 w : ℤ) : ℚ)) := by
  have hmem := quant_channel_codes_mem 8 true w
  have hbound : ∀ c ∈ (quant_channel 8 true w).codes, 0 ≤ c ∧ c ≤ 255 := by
    intro c hc
    have hx := hmem c hc
    simp only [level_low, level_high, if_true] at hx
    norm_num at hx
    exact hx
  have hpack := INT8Asym_pack_id (quant_channel 8 true w).codes hbound
  simp only [compress_decompress]
  norm_num [hpack, Except.map, INT8AsymmetricWeightsDecompressor.forward]
  intro c hc
  have h0 := (hbound c hc).1
  have hs : (quant_channel 8 true w).scale = asym_scale 8 w := rfl
  have hz : (quant_channel 8 true w).zero_point.getD 0 = asym_zero_point 8 w := rfl
  rw [hs, hz]
  congr 1
  exact_mod_cast Int.toNat_of_nonneg h0

/-- The 4-bit symmetric chain: the biased nibble pack and unpack cancel
on the clipped codes, so decompression is `code * scale` elementwise. -/
theorem compress_decompress_sym4 (w : List ℚ) (hlen : w.length % 2 = 0) :
    compress_decompress 4 false w =
      .ok ((quant_channel 4 false w).codes.map fun c : ℤ =>
        decompress_symmetric (c : ℚ) (sym_scale 4 w)) := by
  have hmem := quant_channel_codes_mem 4 false w
  have hbound : ∀ c ∈ (quant_channel 4 false w).codes, -8 ≤ c ∧ c ≤ 7 := by
    intro c hc
    have hx := hmem c hc
    simp only [level_low, level_high, Bool.false_eq_true, if_false] at hx
    norm_num at hx
    exact hx
  have hclen : (quant_channel 4 false w).codes.length % 2 = 0 := by
    rw [quant_channel_sym_codes, List.length_map]
    exact hlen
  obtain ⟨p, hpack, hunpack⟩ := INT4Sym_pack_id (quant_channel 4 false w).codes hbound hclen
  simp only [compress_decompress]
  norm_num [hpack, Except.map, INT4SymmetricWeightsDecompressor.forward, hunpack,
    quant_channel_sym_scale]

/-- The 4-bit asymmetric chain: the nibble pack and unpack cancel on the
clipped codes, so decompression is `(code - zero_point) * scale`
elementwise. -/
theorem compress_decompress_asym4 (w : List ℚ) (hlen : w.length % 2 = 0) :
    compress_decompress 4 true w =
      .ok ((quant_channel 4 true w).codes.map fun c : ℤ =>
        decompress_asymmetric (c : ℚ) (asym_scale 4 w) ((asym_zero_point 4 w : ℤ) : ℚ)) := by
  have hmem := quant_channel_codes_mem 4 true w
  have hbound : ∀ c ∈ (quant_channel 4 true w).codes, 0 ≤ c ∧ c ≤ 15 := by
    intro c hc
    have hx := hmem c hc
    simp only [level_low, level_high, if_true] at hx
    norm_num at hx
    exact hx
  have hclen : (quant_channel 4 true w).codes.length % 2 = 0 := by
    rw [quant_channel_asym_codes, List.length_map]
    exact hlen
  obtain ⟨p, hpack, hunpack⟩ := INT4Asym_pack_id (quant_channel 4 true w).codes hbound hclen
  simp only [compress_decompress]
  norm_num [hpack, Except.map, INT4AsymmetricWeightsDecompressor.forward, hunpack]
  intro c hc
  have h0 := (hbound c hc).1
  have hs : (quant_channel 4 true w).scale = asym_scale 4 w := rfl
  have hz : (quant_channel 4 true w).zero_point.getD 0 = asym_zero_point 4 w := rfl
  rw [hs, hz]
  congr 1
  exact_mod_cast Int.toNat_of_nonneg h0

end PipelineLemmas

section BoundLemmas

/-- If the rounded code is not clipped, asymmetric dequantization is off
from the original value by at most half the scale. -/
theorem elem_bound (s z v : ℚ) (ll lh : ℤ) (hs : s ≠ 0)
    (h1 : ll ≤ roundTE (v / s + z)) (h2 : roundTE (v / s + z) ≤ lh) :
    |decompress_asymmetric ((clipI (roundTE (v / s + z)) ll lh : ℤ) : ℚ) s z - v| ≤ |s| / 2 := by
  rw [clipI_eq_self _ _ _ h1 h2]
  unfold decompress_asymmetric
  set x := v / s + z with hx
  have hv : (x - z) * s = v := by
    rw [hx]
    field_simp
    ring
  have key : ((roundTE x : ℚ) - z) * s - v = ((roundTE x : ℚ) - x) * s := by
    rw [← hv]
    ring
  rw [key, abs_mul]
  have hr := abs_roundTE_sub x
  calc |(roundTE x : ℚ) - x| * |s| ≤ 1 / 2 * |s| :=
        mul_le_mul_of_nonneg_right hr (abs_nonneg s)
    _ = |s| / 2 := by ring

/-- Elementwise form of `elem_bound` over a quantized channel. -/
theorem c2_core (w : List ℚ) (s z : ℚ) (ll lh : ℤ) (hs : s ≠ 0) :
    ∀ i, i < w.length →
      ll ≤ roundTE (w.getD i 0 / s + z) → roundTE (w.getD i 0 / s + z) ≤ lh →
      |(w.map fun v =>
          decompress_asymmetric ((clipI (roundTE (v / s + z)) ll lh : ℤ) : ℚ) s z).getD i 0 -
        w.getD i 0| ≤ |s| / 2 := by
  intro i hi h1 h2
  have hiw : i < (w.map fun v =>
      decompress_asymmetric ((clipI (roundTE (v / s + z)) ll lh : ℤ) : ℚ) s z).length := by
    simpa using hi
  rw [List.getD_eq_getElem _ _ hi] at h1 h2
  rw [List.getD_eq_getElem _ _ hiw, List.getElem_map, List.getD_eq_getElem _ _ hi]
  exact elem_bound s z (w.get ⟨i, hi⟩) ll lh hs h1 h2

end BoundLemmas

section Claims

theorem scale_shape_getD_zero (shape axes : List ℕ) (h : 0 < shape.length) :
    (scale_shape shape axes).getD 0 0 = if 0 ∈ axes then 1 else shape.getD 0 0 := by
  unfold scale_shape
  have hlen : 0 < ((List.range shape.length).map fun i =>
      if i ∈ axes then 1 else shape.getD i 0).length := by
    simpa using h
  rw [List.getD_eq_getElem _ _ hlen, List.getElem_map, List.getElem_range]

/-- Claim C1 (counterexample): the reduction axes computed by the code
disagree with the claim both for a convolution layer of rank 3 (the code
reduces over `[2]`, the claim over all axes except axis 0, i.e. `[1, 2]`)
and for a linear layer of rank 2 (the code reduces over `[1]`, the claim
over all axes except the last, i.e. `[0]`). -/
theorem c1_counterexample :
    reduction_axes LayerClass.conv 3 ≠ reduction_axes_claimed LayerClass.conv 3 ∧
    reduction_axes LayerClass.linear 2 ≠ reduction_axes_claimed LayerClass.linear 2 := by
  decide

/-- Claim C1 (amended): linear layers reduce over exactly the last axis;
convolution layers also reduce over exactly the last axis, because the
all-axes-except-0 assignment of the conv branch is dead (the following
`if`/`else` is not chained to it); transposed-convolution layers reduce
over all axes except axis 1.  A convolution and a transposed-convolution
layer with identical weight shape of rank > 2 and a first extent ≥ 2
still yield scale tensors of different shapes. -/
theorem c1_amended (ndim : ℕ) (h : 2 < ndim) :
    reduction_axes LayerClass.linear ndim = [ndim - 1] ∧
    reduction_axes LayerClass.conv ndim = [ndim - 1] ∧
    reduction_axes LayerClass.convTranspose ndim =
      (List.range ndim).filter (fun i => i ≠ 1) ∧
    ∀ shape : List ℕ, shape.length = ndim → 2 ≤ shape.getD 0 0 →
      scale_shape shape (reduction_axes LayerClass.conv ndim) ≠
        scale_shape shape (reduction_axes LayerClass.convTranspose ndim) := by
  refine ⟨by simp [reduction_axes], by simp [reduction_axes], by simp [reduction_axes], ?_⟩
  intro shape hlen hs0 heq
  have hpos : 0 < shape.length := by omega
  have hz : (scale_shape shape (reduction_axes LayerClass.conv ndim)).getD 0 0 =
      (scale_shape shape (reduction_axes LayerClass.convTranspose ndim)).getD 0 0 := by
    rw [heq]
  rw [scale_shape_getD_zero shape _ hpos, scale_shape_getD_zero shape _ hpos] at hz
  have hm1 : (0 : ℕ) ∉ reduction_axes LayerClass.conv ndim := by
    simp [reduction_axes]
    omega
  have hm2 : (0 : ℕ) ∈ reduction_axes LayerClass.convTranspose ndim := by
    simp [reduction_axes]
    omega
  rw [if_neg hm1, if_pos hm2] at hz
  omega

/-- Claim C1 (amended, witness): at rank 3 with weight shape `(2, 3, 4)`,
the linear and conv layers reduce over `[2]`, the transposed convolution
over `[0, 2]`, and the conv and transposed-conv scale shapes differ. -/
theorem c1_amended_witness :
    reduction_axes LayerClass.linear 3 = [2] ∧
    reduction_axes LayerClass.conv 3 = [2] ∧
    reduction_axes LayerClass.convTranspose 3 = (List.range 3).filter (fun i => i ≠ 1) ∧
    scale_shape [2, 3, 4] (reduction_axes LayerClass.conv 3) ≠
      scale_shape [2, 3, 4] (reduction_axes LayerClass.convTranspose 3) := by
  obtain ⟨ha, hb, hc, hd⟩ := c1_amended 3 (by norm_num)
  exact ⟨ha, hb, hc, hd [2, 3, 4] rfl (by norm_num)⟩

/-- Claim C3: for even-length tensors of values in the legal range —
`[0, 15]` for unsigned 4-bit, `[-8, 7]` for signed 4-bit with the +8 bias
applied before packing — unpacking the packed bytes restores the original
values exactly (low nibble holds the first value of each pair, the high
nibble the second; unpacking extracts them by AND with 15 and right-shift
by 4). -/
theorem c3_pack_unpack_identity (lu : List ℕ) (hu : ∀ v ∈ lu, v ≤ 15)
    (hul : lu.length % 2 = 0)
    (ls : List ℤ) (hs : ∀ v ∈ ls, -8 ≤ v ∧ v ≤ 7) (hsl : ls.length % 2 = 0) :
    (∃ p, pack_uint4 lu = some p ∧ unpack_uint4 p = lu) ∧
    (∃ q, pack_int4 ls = some q ∧ unpack_int4 q = ls) := by
  constructor
  · exact pack_uint4_roundtrip lu (fun v hv => by have := hu v hv; omega) hul
  · obtain ⟨p, hp, hup⟩ := pack_uint4_roundtrip (ls.map fun v : ℤ => (v + 8).toNat)
      (fun v hv => by
        obtain ⟨c, hc, rfl⟩ := List.mem_map.mp hv
        have := hs c hc
        omega)
      (by simpa using hsl)
    refine ⟨p, ?_, ?_⟩
    · unfold pack_int4
      rw [show ls.map (fun v : ℤ => ((v + 8) % 256).toNat) =
            ls.map (fun v : ℤ => (v + 8).toNat) from
          List.map_congr_left (fun c hc => by have := hs c hc; omega), hp]
    · unfold unpack_int4
      rw [hup, List.map_map]
      apply List.ext_getElem (by simp)
      intro i hi1 hi2
      simp only [List.getElem_map, Function.comp_apply]
      have hmem := List.getElem_mem hi2
      have := hs _ hmem
      omega

/-- Claim C3 (witness): the pack/unpack identity at `[3, 12]` unsigned
and `[-8, 7]` signed. -/
theorem c3_pack_unpack_identity_witness :
    (∃ p, pack_uint4 [3, 12] = some p ∧ unpack_uint4 p = [3, 12]) ∧
    (∃ q, pack_int4 [-8, 7] = some q ∧ unpack_int4 q = [-8, 7]) :=
  c3_pack_unpack_identity [3, 12] (by decide) (by decide) [-8, 7] (by decide) (by decide)

/-- Claim C5 (counterexample): for the tensor `[[1, -2], [3, -0.5]]` the
code's per-channel `abs(min)` is `|−2| = 2`, not `0.5` as the claim
asserts. -/
theorem c5_counterexample : ¬(|amin c5_tensor| = 1 / 2) := by
  norm_num [amin, c5_tensor, List.foldl, min_def]

/-- Claim C5 (amended): in symmetric mode the per-channel scale equals
`(abs(min) if abs(min) ≥ max else −max) / 2^(num_bits−1)` floored to
machine epsilon, no zero point is produced, and for the tensor
`[[1.0, -2.0], [3.0, -0.5]]` at 8 bits with whole-tensor reduction
`abs_min = 2.0` (not `0.5`), `max = 3.0`, and `scale = -3.0 / 128`. -/
theorem c5_sym_scale_amended :
    (∀ (num_bits : ℕ) (w : List ℚ),
        (quant_channel num_bits false w).scale = sym_scale_spec num_bits w ∧
        (quant_channel num_bits false w).zero_point = none) ∧
    |amin c5_tensor| = 2 ∧ amax c5_tensor = 3 ∧
    (quant_channel 8 false c5_tensor).scale = -3 / 128 := by
  refine ⟨fun num_bits w => ⟨?_, rfl⟩,
    by norm_num [amin, c5_tensor, List.foldl, min_def],
    by norm_num [amax, c5_tensor, List.foldl, max_def], ?_⟩
  · rw [quant_channel_sym_scale]
    unfold sym_scale sym_scale_spec
    by_cases h : |amin w| ≥ amax w
    · simp only [if_pos h]
    · simp only [if_neg h, neg_div]
  · rw [quant_channel_sym_scale]
    norm_num [sym_scale, amin, amax, c5_tensor, List.foldl, min_def, max_def, eps]
    rw [show |(3 : ℚ) / 128| = 3 / 128 from abs_of_pos (by norm_num)]
    norm_num

/-- Claim C6: a tensor containing a value outside the legal range of the
configured bit width and signedness (`[0, 255]` asymmetric 8-bit,
`[-128, 127]` symmetric 8-bit, `[0, 15]` asymmetric 4-bit, `[-8, 7]`
symmetric 4-bit) is rejected by the corresponding `pack_weight` and never
silently truncated. -/
theorem c6_out_of_range_rejected (wt : PTensor) (v : ℚ) (hv : v ∈ wt.vals) :
    ((v < 0 ∨ 255 < v) → ∀ r, INT8AsymmetricWeightsDecompressor.pack_weight wt ≠ .ok r) ∧
    ((v < -128 ∨ 127 < v) → ∀ r, INT8SymmetricWeightsDecompressor.pack_weight wt ≠ .ok r) ∧
    ((v < 0 ∨ 15 < v) → ∀ r, INT4AsymmetricWeightsDecompressor.pack_weight wt ≠ .ok r) ∧
    ((v < -8 ∨ 7 < v) → ∀ r, INT4SymmetricWeightsDecompressor.pack_weight wt ≠ .ok r) := by
  refine ⟨?_, ?_, ?_, ?_⟩ <;> intro hout r hok
  · unfold INT8AsymmetricWeightsDecompressor.pack_weight at hok
    have hany : wt.vals.any (fun x => decide (x < 0) || decide (255 < x)) = true :=
      List.any_eq_true.mpr ⟨v, hv, by rcases hout with h | h <;> simp [h]⟩
    by_cases hf : wt.is_float <;> simp [hf, hany] at hok
  · unfold INT8SymmetricWeightsDecompressor.pack_weight at hok
    have hany : wt.vals.any (fun x => decide (x < -128) || decide (127 < x)) = true :=
      List.any_eq_true.mpr ⟨v, hv, by rcases hout with h | h <;> simp [h]⟩
    simp [hany] at hok
  · unfold INT4AsymmetricWeightsDecompressor.pack_weight at hok
    have hany : wt.vals.any (fun x => decide (x < 0) || decide (15 < x)) = true :=
      List.any_eq_true.mpr ⟨v, hv, by rcases hout with h | h <;> simp [h]⟩
    simp [hany] at hok
  · unfold INT4SymmetricWeightsDecompressor.pack_weight at hok
    have hany : wt.vals.any (fun x => decide (x < -8) || decide (7 < x)) = true :=
      List.any_eq_true.mpr ⟨v, hv, by rcases hout with h | h <;> simp [h]⟩
    by_cases hf : wt.is_float <;> simp [hf, hany] at hok

/-- Claim C6 (witness): packing 16 into a 4-bit unsigned slot and -9 into
a 4-bit signed slot both raise. -/
theorem c6_out_of_range_rejected_witness :
    (∀ r, INT4AsymmetricWeightsDecompressor.pack_weight ⟨false, [16]⟩ ≠ .ok r) ∧
    (∀ r, INT4SymmetricWeightsDecompressor.pack_weight ⟨false, [-9]⟩ ≠ .ok r) :=
  ⟨(c6_out_of_range_rejected ⟨false, [16]⟩ 16 (by simp)).2.2.1 (by norm_num),
    (c6_out_of_range_rejected ⟨false, [-9]⟩ (-9) (by simp)).2.2.2 (by norm_num)⟩

/-- Claim C7 (counterexample): `INT8SymmetricWeightsDecompressor.pack_weight`
does not reject a floating-point tensor whose values are inside the legal
integer range — it casts and packs `[1.5]` to `[1]` instead of raising. -/
theorem c7_counterexample :
    INT8SymmetricWeightsDecompressor.pack_weight ⟨true, [3 / 2]⟩ = .ok [1] := by
  unfold INT8SymmetricWeightsDecompressor.pack_weight
  norm_num [qtrunc, int8wrap]

/-- Claim C7 (amended): only the INT8 asymmetric and INT4 symmetric
`pack_weight` methods reject floating-point tensors; the INT8 symmetric
and INT4 asymmetric `pack_weight` methods perform no dtype check and
cast and pack an in-range floating-point tensor without error. -/
theorem c7_dtype_check_amended (wt : PTensor) (hf : wt.is_float = true) :
    (∀ r, INT8AsymmetricWeightsDecompressor.pack_weight wt ≠ .ok r) ∧
    (∀ r, INT4SymmetricWeightsDecompressor.pack_weight wt ≠ .ok r) ∧
    ((∀ v ∈ wt.vals, -128 ≤ v ∧ v ≤ 127) →
      ∃ r, INT8SymmetricWeightsDecompressor.pack_weight wt = .ok r) ∧
    ((∀ v ∈ wt.vals, 0 ≤ v ∧ v ≤ 15) → wt.vals.length % 2 = 0 →
      ∃ r, INT4AsymmetricWeightsDecompressor.pack_weight wt = .ok r) := by
  refine ⟨?_, ?_, ?_, ?_⟩
  · intro r hok
    unfold INT8AsymmetricWeightsDecompressor.pack_weight at hok
    simp [hf] at hok
  · intro r hok
    unfold INT4SymmetricWeightsDecompressor.pack_weight at hok
    simp [hf] at hok
  · intro hin
    unfold INT8SymmetricWeightsDecompressor.pack_weight
    have hany : wt.vals.any (fun x => decide (x < -128) || decide (127 < x)) = false := by
      rw [List.any_eq_false]
      intro x hx
      have := hin x hx
      simp only [Bool.or_eq_true, decide_eq_true_eq, not_or, not_lt]
      exact ⟨this.1, this.2⟩
    simp [hany]
  · intro hin hlen
    unfold INT4AsymmetricWeightsDecompressor.pack_weight
    have hany : wt.vals.any (fun x => decide (x < 0) || decide (15 < x)) = false := by
      rw [List.any_eq_false]
      intro x hx
      have := hin x hx
      simp only [Bool.or_eq_true, decide_eq_true_eq, not_or, not_lt]
      exact ⟨this.1, this.2⟩
    obtain ⟨p, hp⟩ := pack_uint4_isSome
      (wt.vals.map fun x => (uint8wrap (qtrunc x)).toNat) (by simpa using hlen)
    simp [hany, hp]

/-- Claim C7 (amended, witness): the float tensor `[1.5, 0.5]` is
rejected by the INT8 asymmetric packer but accepted by the INT8 symmetric
and INT4 asymmetric packers. -/
theorem c7_dtype_check_amended_witness :
    (∀ r, INT8AsymmetricWeightsDecompressor.pack_weight ⟨true, [3 / 2, 1 / 2]⟩ ≠ .ok r) ∧
    (∃ r, INT8SymmetricWeightsDecompressor.pack_weight ⟨true, [3 / 2, 1 / 2]⟩ = .ok r) ∧
    (∃ r, INT4AsymmetricWeightsDecompressor.pack_weight ⟨true, [3 / 2, 1 / 2]⟩ = .ok r) := by
  obtain ⟨h1, h2, h3, h4⟩ := c7_dtype_check_amended ⟨true, [3 / 2, 1 / 2]⟩ rfl
  exact ⟨h1, h3 (by norm_num), h4 (by norm_num) rfl⟩

/-- Claim C8: a convolution or transposed-convolution layer is returned
unmodified by `nncf_compress_layer` when asymmetric mode is requested —
same weight storage, no decompressor attached, no error — for any bit
width and any `quant_conv` setting. -/
theorem c8_asym_conv_passthrough (layer : Layer)
    (h : layer.cls = LayerClass.conv ∨ layer.cls = LayerClass.convTranspose)
    (num_bits : ℕ) (quant_conv : Bool) :
    nncf_compress_layer num_bits true quant_conv layer = .ok layer := by
  unfold nncf_compress_layer
  rcases h with h | h <;> rw [h] <;> simp

/-- Claim C8 (witness): a concrete convolution layer under asymmetric
mode at 8 bits with `quant_conv = True` passes through unchanged. -/
theorem c8_asym_conv_passthrough_witness :
    nncf_compress_layer 8 true true ⟨LayerClass.conv, 4, [[1]], none, 0⟩ =
      .ok ⟨LayerClass.conv, 4, [[1]], none, 0⟩ :=
  c8_asym_conv_passthrough ⟨LayerClass.conv, 4, [[1]], none, 0⟩ (Or.inl rfl) 8 true

/-- Claim C9: `create_quantized_param` calls `nncf_compress_layer`
without `quant_conv`, which defaults to `False`, so on that path every
convolution and transposed-convolution layer is returned unmodified in
both modes, symmetric included. -/
theorem c9_create_param_skips_convs (layer : Layer)
    (h : layer.cls = LayerClass.conv ∨ layer.cls = LayerClass.convTranspose)
    (num_bits : ℕ) (is_asym_mode : Bool) :
    create_quantized_param num_bits is_asym_mode layer = .ok layer := by
  unfold create_quantized_param nncf_compress_layer
  rcases h with h | h <;> rw [h] <;> simp

/-- Claim C9 (witness): a concrete transposed-convolution layer is left
unchanged by the `create_quantized_param` path even in symmetric mode. -/
theorem c9_create_param_skips_convs_witness :
    create_quantized_param 4 false ⟨LayerClass.convTranspose, 4, [[2]], none, 0⟩ =
      .ok ⟨LayerClass.convTranspose, 4, [[2]], none, 0⟩ :=
  c9_create_param_skips_convs ⟨LayerClass.convTranspose, 4, [[2]], none, 0⟩ (Or.inr rfl) 4 false

/-- Claim C4: in asymmetric mode the computed parameters satisfy
`level_low = 0`, `level_high = 2^num_bits - 1`,
`scale = (max - min) / (levels - 1)` per channel floored to machine
epsilon, and `zero_point = round(level_low - min / scale)` clipped to
`[level_low, level_high]` and stored as an integer. -/
theorem c4_asym_params (num_bits : ℕ) (w : List ℚ) :
    (quant_channel num_bits true w).scale = asym_scale_spec num_bits w ∧
    (quant_channel num_bits true w).zero_point = some (asym_zero_point_spec num_bits w) ∧
    ∀ z, (quant_channel num_bits true w).zero_point = some z →
      0 ≤ z ∧ z ≤ 2 ^ num_bits - 1 := by
  have hc : ((((2 : ℤ) ^ num_bits - 1 - 0 + 1) : ℤ) : ℚ) = ((2 : ℚ) ^ num_bits) := by
    push_cast
    ring
  have hscale : asym_scale num_bits w = asym_scale_spec num_bits w := by
    unfold asym_scale asym_scale_spec
    simp only [hc]
  have hzp : asym_zero_point num_bits w = asym_zero_point_spec num_bits w := by
    unfold asym_zero_point asym_zero_point_spec
    rw [hscale]
    congr 1
    rw [zero_sub, zero_sub, roundTE_neg]
  refine ⟨by rw [quant_channel_asym_scale, hscale], ?_, ?_⟩
  · rw [show (quant_channel num_bits true w).zero_point =
        some (asym_zero_point num_bits w) from rfl, hzp]
  · intro z hz
    rw [show (quant_channel num_bits true w).zero_point =
        some (asym_zero_point num_bits w) from rfl] at hz
    obtain rfl := (Option.some.inj hz).symm
    have hm := asym_zero_point_mem num_bits w
    simpa [level_low, level_high] using hm

/-- Claim C10: the rounded codes are clipped into
`[level_low, level_high]` for the configured bit width and mode before
`pack_weight` is invoked, the asymmetric zero point likewise, and so the
whole quantize-pack chain succeeds: the range-validation error branch of
`pack_weight` is unreachable from the quantization pass. -/
theorem c10_pack_error_unreachable (num_bits : ℕ) (hnb : num_bits = 4 ∨ num_bits = 8)
    (is_asym_mode : Bool) (w : List ℚ) (hlen : num_bits = 4 → w.length % 2 = 0) :
    (∀ c ∈ (quant_channel num_bits is_asym_mode w).codes,
      level_low num_bits is_asym_mode ≤ c ∧ c ≤ level_high num_bits is_asym_mode) ∧
    (∀ z, (quant_channel num_bits is_asym_mode w).zero_point = some z →
      level_low num_bits is_asym_mode ≤ z ∧ z ≤ level_high num_bits is_asym_mode) ∧
    ∃ d, compress_decompress num_bits is_asym_mode w = .ok d := by
  refine ⟨quant_channel_codes_mem _ _ _, ?_, ?_⟩
  · intro z hz
    cases is_asym_mode
    · rw [show (quant_channel num_bits false w).zero_point = none from rfl] at hz
      cases hz
    · rw [show (quant_channel num_bits true w).zero_point =
          some (asym_zero_point num_bits w) from rfl] at hz
      obtain rfl := (Option.some.inj hz).symm
      exact asym_zero_point_mem num_bits w
  · rcases hnb with rfl | rfl <;> cases is_asym_mode
    · exact ⟨_, compress_decompress_sym4 w (hlen rfl)⟩
    · exact ⟨_, compress_decompress_asym4 w (hlen rfl)⟩
    · exact ⟨_, compress_decompress_sym8 w⟩
    · exact ⟨_, compress_decompress_asym8 w⟩

/-- Claim C10 (witness): the 4-bit asymmetric chain on the channel
`[0, 1]` packs without error. -/
theorem c10_pack_error_unreachable_witness :
    (∀ c ∈ (quant_channel 4 true [0, 1]).codes,
      level_low 4 true ≤ c ∧ c ≤ level_high 4 true) ∧
    (∀ z, (quant_channel 4 true [0, 1]).zero_point = some z →
      level_low 4 true ≤ z ∧ z ≤ level_high 4 true) ∧
    ∃ d, compress_decompress 4 true [0, 1] = .ok d :=
  c10_pack_error_unreachable 4 (Or.inl rfl) true [0, 1] (fun _ => rfl)

/-- Claim C2 (counterexample): for the channel `[-1, 1]` at 8 bits
symmetric, the scale is `1/128` and the element `1` round-trips to
`127/128` (its code 128 is clipped to 127), an error of `1/128 = scale`,
which exceeds `|scale| / 2`. -/
theorem c2_counterexample :
    sym_scale 8 [-1, 1] = 1 / 128 ∧
    ∃ d, compress_decompress 8 false [-1, 1] = .ok d ∧
      d.getD 1 0 = 127 / 128 ∧
      ¬(|d.getD 1 0 - (1 : ℚ)| ≤ |sym_scale 8 [-1, 1]| / 2) := by
  have habs1 : |(-1 : ℚ)| = 1 := by norm_num
  have habs2 : |(1 : ℚ) / 128| = 1 / 128 := abs_of_pos (by norm_num)
  have hs : sym_scale 8 [-1, 1] = 1 / 128 := by
    norm_num [sym_scale, amin, amax, List.foldl, min_def, max_def, eps, habs1, habs2]
  have hcol := compress_decompress_sym8 [-1, 1]
  have h128 : (1 : ℚ) / sym_scale 8 [-1, 1] = ((128 : ℤ) : ℚ) := by
    rw [hs]
    norm_num
  have hr : roundTE ((1 : ℚ) / sym_scale 8 [-1, 1]) = 128 := by
    rw [h128, roundTE_intCast]
  have hclip : clipI 128 (level_low 8 false) (level_high 8 false) = 127 := by
    norm_num [clipI, level_low, level_high]
  have hval : ((quant_channel 8 false [-1, 1]).codes.map fun c : ℤ =>
      decompress_symmetric (c : ℚ) (sym_scale 8 [-1, 1])).getD 1 0 = 127 / 128 := by
    rw [quant_channel_sym_codes]
    simp only [List.map_cons, List.map_nil, List.getD_cons_succ, List.getD_cons_zero]
    rw [hr, hclip, hs]
    norm_num [decompress_symmetric]
  refine ⟨hs, _, hcol, hval, ?_⟩
  rw [hval, hs, show (127 : ℚ) / 128 - 1 = -(1 / 128) from by norm_num, abs_neg, habs2]
  norm_num

/-- Claim C2 (amended): for `num_bits ∈ {4, 8}` and both modes the chain
quantize → pack → unpack → dequantize succeeds, and every element whose
rounded code `round(W/scale (+ zero_point))` already lies within
`[level_low, level_high]` (i.e. is not clipped) has round-trip error at
most `|scale| / 2`; in asymmetric mode the zero point always lies in
`[level_low, level_high]`.  (Clipped elements can exceed the bound, as
the counterexample shows, so the unclipped-code condition is needed.) -/
theorem c2_roundtrip_amended (num_bits : ℕ) (hnb : num_bits = 4 ∨ num_bits = 8)
    (is_asym_mode : Bool) (w : List ℚ) (hlen : num_bits = 4 → w.length % 2 = 0) :
    ∃ d, compress_decompress num_bits is_asym_mode w = .ok d ∧
      d.length = w.length ∧
      (∀ z, (quant_channel num_bits is_asym_mode w).zero_point = some z →
        level_low num_bits is_asym_mode ≤ z ∧ z ≤ level_high num_bits is_asym_mode) ∧
      ∀ i, i < w.length →
        level_low num_bits is_asym_mode ≤
            unclipped_code num_bits is_asym_mode w (w.getD i 0) →
        unclipped_code num_bits is_asym_mode w (w.getD i 0) ≤
            level_high num_bits is_asym_mode →
        |d.getD i 0 - w.getD i 0| ≤ |(quant_channel num_bits is_asym_mode w).scale| / 2 := by
  have hzp_none : ∀ nb : ℕ, ∀ z : ℤ, (quant_channel nb false w).zero_point = some z →
      level_low nb false ≤ z ∧ z ≤ level_high nb false := by
    intro nb z hz
    rw [show (quant_channel nb false w).zero_point = none from rfl] at hz
    cases hz
  have hzp_some : ∀ nb : ℕ, ∀ z : ℤ, (quant_channel nb true w).zero_point = some z →
      level_low nb true ≤ z ∧ z ≤ level_high nb true := by
    intro nb z hz
    rw [show (quant_channel nb true w).zero_point =
        some (asym_zero_point nb w) from rfl] at hz
    obtain rfl := (Option.some.inj hz).symm
    exact asym_zero_point_mem nb w
  have hsym : ∀ nb : ℕ,
      compress_decompress nb false w =
        .ok ((quant_channel nb false w).codes.map fun c : ℤ =>
          decompress_symmetric (c : ℚ) (sym_scale nb w)) →
      ∃ d, compress_decompress nb false w = .ok d ∧
        d.length = w.length ∧
        (∀ z, (quant_channel nb false w).zero_point = some z →
          level_low nb false ≤ z ∧ z ≤ level_high nb false) ∧
        ∀ i, i < w.length →
          level_low nb false ≤ unclipped_code nb false w (w.getD i 0) →
          unclipped_code nb false w (w.getD i 0) ≤ level_high nb false →
          |d.getD i 0 - w.getD i 0| ≤ |(quant_channel nb false w).scale| / 2 := by
    intro nb hcol
    refine ⟨_, hcol, ?_, hzp_none nb, ?_⟩
    · rw [quant_channel_sym_codes]
      simp
    · intro i hi h1 h2
      have hunc : ∀ x : ℚ, unclipped_code nb false w x = roundTE (x / sym_scale nb w + 0) := by
        intro x
        unfold unclipped_code
        rw [quant_channel_sym_scale,
          show (quant_channel nb false w).zero_point = none from rfl]
        norm_num
      rw [hunc] at h1 h2
      have hb := c2_core w (sym_scale nb w) 0 (level_low nb false) (level_high nb false)
        (sym_scale_ne_zero nb w) i hi h1 h2
      have hLb : ((quant_channel nb false w).codes.map fun c : ℤ =>
          decompress_symmetric (c : ℚ) (sym_scale nb w)) =
          w.map fun v => decompress_asymmetric
            ((clipI (roundTE (v / sym_scale nb w + 0)) (level_low nb false)
              (level_high nb false) : ℤ) : ℚ) (sym_scale nb w) 0 := by
        rw [quant_channel_sym_codes, List.map_map]
        apply List.map_congr_left
        intro v hv
        simp [decompress_symmetric, decompress_asymmetric, Function.comp]
      rw [quant_channel_sym_scale, hLb]
      exact hb
  have hasym : ∀ nb : ℕ,
      compress_decompress nb true w =
        .ok ((quant_channel nb true w).codes.map fun c : ℤ =>
          decompress_asymmetric (c : ℚ) (asym_scale nb w) ((asym_zero_point nb w : ℤ) : ℚ)) →
      ∃ d, compress_decompress nb true w = .ok d ∧
        d.length = w.length ∧
        (∀ z, (quant_channel nb true w).zero_point = some z →
          level_low nb true ≤ z ∧ z ≤ level_high nb true) ∧
        ∀ i, i < w.length →
          level_low nb true ≤ unclipped_code nb true w (w.getD i 0) →
          unclipped_code nb true w (w.getD i 0) ≤ level_high nb true →
          |d.getD i 0 - w.getD i 0| ≤ |(quant_channel nb true w).scale| / 2 := by
    intro nb hcol
    refine ⟨_, hcol, ?_, hzp_some nb, ?_⟩
    · rw [quant_channel_asym_codes]
      simp
    · intro i hi h1 h2
      have hb := c2_core w (asym_scale nb w) ((asym_zero_point nb w : ℤ) : ℚ)
        (level_low nb true) (level_high nb true) (asym_scale_ne_zero nb w) i hi h1 h2
      have hLb : ((quant_channel nb true w).codes.map fun c : ℤ =>
          decompress_asymmetric (c : ℚ) (asym_scale nb w) ((asym_zero_point nb w : ℤ) : ℚ)) =
          w.map fun v => decompress_asymmetric
            ((clipI (roundTE (v / asym_scale nb w + ((asym_zero_point nb w : ℤ) : ℚ)))
              (level_low nb true) (level_high nb true) : ℤ) : ℚ)
            (asym_scale nb w) ((asym_zero_point nb w : ℤ) : ℚ) := by
        rw [quant_channel_asym_codes, List.map_map]
        rfl
      rw [quant_channel_asym_scale, hLb]
      exact hb
  rcases hnb with rfl | rfl <;> cases is_asym_mode
  · exact hsym 4 (compress_decompress_sym4 w (hlen rfl))
  · exact hasym 4 (compress_decompress_asym4 w (hlen rfl))
  · exact hsym 8 (compress_decompress_sym8 w)
  · exact hasym 8 (compress_decompress_asym8 w)

/-- Claim C2 (amended, witness): the amended round-trip bound applied to
the single-element channel `[1/2]` at 8 bits symmetric. -/
theorem c2_roundtrip_amended_witness :
    ∃ d, compress_decompress 8 false [1 / 2] = .ok d ∧
      d.length = ([1 / 2] : List ℚ).length ∧
      (∀ z, (quant_channel 8 false [1 / 2]).zero_point = some z →
        level_low 8 false ≤ z ∧ z ≤ level_high 8 false) ∧
      ∀ i, i < ([1 / 2] : List ℚ).length →
        level_low 8 false ≤ unclipped_code 8 false [1 / 2] (([1 / 2] : List ℚ).getD i 0) →
        unclipped_code 8 false [1 / 2] (([1 / 2] : List ℚ).getD i 0) ≤ level_high 8 false →
        |d.getD i 0 - ([1 / 2] : List ℚ).getD i 0| ≤
          |(quant_channel 8 false [1 / 2]).scale| / 2 :=
  c2_roundtrip_amended 8 (Or.inr rfl) false [1 / 2] (fun h => by omega)

end Claims

end NNCFQuant
